import Mathlib

/-!
Verification of `pyomo/pysp/benders.py` (the Benders / L-shaped decomposition
driver) against its natural-language specification.  The Python source is
shallowly embedded: every definition below mirrors a concrete piece of the
Python code (named in its doc comment); theorems then settle the spec claims
about those definitions.  Real numbers manipulated by the code are modelled
as rationals.
-/

namespace BendersPy

/-- Objective sense, mirroring `pyomo.core.minimize` / `pyomo.core.maximize`. -/
inductive Sense where
  | minimize
  | maximize
deriving DecidableEq

/-- Extended rationals, modelling Python floats including
`float('-inf')` (`⊥`) and `float('inf')` (`⊤`) as used for the
`MASTER_bound_history[-1]` seed in `BendersAlgorithm.solve`. -/
abbrev ExtQ := WithBot (WithTop ℚ)

/-! ### `collect_servers` (benders.py lines 653-669) -/

/-- Embeds `collect_servers(solver_manager, scenario_tree, options)`:
computes the pair of arguments passed to `solver_manager.acquire_servers`.
`requiredWorkers` is `options.phpyro_required_workers` (None when not
user-configured), `workersTimeout` is `options.phpyro_workers_timeout`,
and the job count comes from bundles when the tree contains bundles,
else from scenarios. -/
def collectServers (requiredWorkers : Option ℕ) (workersTimeout : ℚ)
    (containsBundles : Bool) (numBundles numScenarios : ℕ) : ℕ × Option ℚ :=
  let numJobs := if containsBundles then numBundles else numScenarios
  match requiredWorkers with
  | none => (numJobs, some workersTimeout)
  | some n => (n, none)

/-! ### Optimality gap (benders.py line 1482) -/

/-- The `1e-10` guard in the optimality-gap denominator. -/
def epsGap : ℚ := 1 / 10 ^ 10

/-- Embeds `optimality_gap =
abs(best_master_bound-incumbent_objective)/(1e-10+abs(incumbent_objective))`
from `BendersAlgorithm.solve`. -/
def optimalityGap (bestMasterBound incumbentObjective : ℚ) : ℚ :=
  |bestMasterBound - incumbentObjective| / (epsGap + |incumbentObjective|)

/-! ### `EXTERNAL_collect_cut_data` (benders.py lines 797-826) -/

/-- Embeds the dual extraction of `EXTERNAL_collect_cut_data`: when the tree
contains bundles, `sum_probability_bundle` is the bundle probability,
otherwise the scenario probability; each first-stage variable id is mapped to
`dual_suffix[benders_fix_constraint[variable_id]] * sum_probability_bundle
/ scenario._probability`. -/
def collectCutDataDuals {V : Type} (bundled : Bool) (bundleProb scenProb : ℚ)
    (rawDual : V → ℚ) : V → ℚ :=
  let sumProbabilityBundle := if bundled then bundleProb else scenProb
  fun v => rawDual v * sumProbabilityBundle / scenProb

/-! ### Master-bound recording (benders.py lines 1440-1449) -/

/-- Embeds the computation of `current_master_bound` in
`BendersAlgorithm.solve`: start from `value(master_objective)`; when the
master solver reported a gap, subtract it under minimize and add it under
maximize. -/
def currentMasterBound (sense : Sense) (objVal : ℚ) (solGap : Option ℚ) : ℚ :=
  match solGap with
  | none => objVal
  | some g =>
    match sense with
    | .minimize => objVal - g
    | .maximize => objVal + g

/-- Embeds `MASTER_bound_history[i] = current_master_bound`: the bound
history is an association list from iteration index to recorded value and a
new entry is prepended. -/
def recordIterationBound (hist : List (ℤ × ExtQ)) (i : ℤ) (sense : Sense)
    (objVal : ℚ) (solGap : Option ℚ) : List (ℤ × ExtQ) :=
  (i, ((currentMasterBound sense objVal solGap : ℚ) : ExtQ)) :: hist

/-! ### Bundle construction (benders.py lines 956-961)

`BendersAlgorithm.initialize` builds the multicut bundles with
```
bundles = [[] for i in xrange(self._options.multicuts)]
assert 1 <= self._options.multicuts <= len(ph._scenario_tree._scenarios)
for cnt, scenario in enumerate(scenario_tree._scenarios):
    bundles[cnt % self._options.multicuts].append(scenario._name)
```
-/

/-- `bundles[i].append(x)` on a list of lists. -/
def appendAt {α : Type} (ls : List (List α)) (i : ℕ) (x : α) : List (List α) :=
  ls.set i (ls.getD i [] ++ [x])

/-- The enumeration loop of the bundle construction: `cnt` is the running
enumeration index, `acc` the bundles built so far. -/
def mkBundlesAux {α : Type} (B : ℕ) : List α → ℕ → List (List α) → List (List α)
  | [], _, acc => acc
  | s :: rest, cnt, acc => mkBundlesAux B rest (cnt + 1) (appendAt acc (cnt % B) s)

/-- The bundle construction of `BendersAlgorithm.initialize`: start from
`multicuts` empty bundles and append scenario `cnt` to bundle
`cnt % multicuts`. -/
def mkBundles {α : Type} (B : ℕ) (scenarios : List α) : List (List α) :=
  mkBundlesAux B scenarios 0 (List.replicate B [])

theorem length_appendAt {α : Type} (ls : List (List α)) (i : ℕ) (x : α) :
    (appendAt ls i x).length = ls.length :=
  List.length_set ls i _

theorem length_mkBundlesAux {α : Type} (B : ℕ) (l : List α) (cnt : ℕ)
    (acc : List (List α)) : (mkBundlesAux B l cnt acc).length = acc.length := by
  induction l generalizing cnt acc with
  | nil => rfl
  | cons s rest ih => rw [mkBundlesAux, ih, length_appendAt]

theorem getD_appendAt_self {α : Type} (ls : List (List α)) (i : ℕ) (x : α)
    (h : i < ls.length) :
    (appendAt ls i x).getD i [] = ls.getD i [] ++ [x] := by
  induction ls generalizing i with
  | nil => simp at h
  | cons b bs ih =>
    cases i with
    | zero => simp [appendAt]
    | succ n =>
      have hn : n < bs.length := by simpa using h
      simpa [appendAt, List.getD_cons_succ] using ih n hn

theorem getD_appendAt_ne {α : Type} (ls : List (List α)) (i j : ℕ) (x : α)
    (hj : j ≠ i) : (appendAt ls i x).getD j [] = ls.getD j [] := by
  induction ls generalizing i j with
  | nil => simp [appendAt]
  | cons b bs ih =>
    cases i with
    | zero =>
      cases j with
      | zero => exact absurd rfl hj
      | succ m => simp [appendAt, List.getD_cons_succ]
    | succ n =>
      cases j with
      | zero => simp [appendAt]
      | succ m =>
        have hm : m ≠ n := by omega
        simpa [appendAt, List.getD_cons_succ] using ih n m hm

theorem mem_getD_appendAt {α : Type} (ls : List (List α)) (i j : ℕ) (x y : α)
    (hy : y ∈ ls.getD j []) : y ∈ (appendAt ls i x).getD j [] := by
  by_cases hji : j = i
  · subst hji
    by_cases hlt : j < ls.length
    · rw [getD_appendAt_self ls j x hlt]
      exact List.mem_append_left _ hy
    · rw [appendAt, List.set_eq_of_length_le (by omega)]
      exact hy
  · rw [getD_appendAt_ne ls i j x hji]
    exact hy

theorem mem_getD_mkBundlesAux {α : Type} (B : ℕ) (l : List α) (cnt : ℕ)
    (acc : List (List α)) (y : α) (j : ℕ) (hy : y ∈ acc.getD j []) :
    y ∈ (mkBundlesAux B l cnt acc).getD j [] := by
  induction l generalizing cnt acc with
  | nil => exact hy
  | cons s rest ih =>
    exact ih (cnt + 1) _ (mem_getD_appendAt acc (cnt % B) j s y hy)

theorem get_mem_mkBundlesAux {α : Type} (B : ℕ) (hB : 0 < B) (l : List α) :
    ∀ (cnt : ℕ) (acc : List (List α)), acc.length = B →
      ∀ (k : ℕ) (hk : k < l.length),
        l.get ⟨k, hk⟩ ∈ (mkBundlesAux B l cnt acc).getD ((cnt + k) % B) [] := by
  induction l with
  | nil => intro cnt acc hacc k hk; simp at hk
  | cons s rest ih =>
    intro cnt acc hacc k hk
    cases k with
    | zero =>
      have hmem : s ∈ (appendAt acc (cnt % B) s).getD (cnt % B) [] := by
        rw [getD_appendAt_self acc (cnt % B) s (by rw [hacc]; exact Nat.mod_lt _ hB)]
        simp
      simpa using
        mem_getD_mkBundlesAux B rest (cnt + 1) _ s (cnt % B) hmem
    | succ n =>
      have hn : n < rest.length := by simpa using hk
      have h2 := ih (cnt + 1) (appendAt acc (cnt % B) s)
        (by rw [length_appendAt, hacc]) n hn
      have harith : (cnt + 1 + n) % B = (cnt + (n + 1)) % B := by
        have : cnt + 1 + n = cnt + (n + 1) := by omega
        rw [this]
      rw [mkBundlesAux]
      simpa [harith] using h2

theorem countSum_appendAt {α : Type} [DecidableEq α] (ls : List (List α))
    (i : ℕ) (x y : α) (h : i < ls.length) :
    ((appendAt ls i x).map (List.count y)).sum
      = (ls.map (List.count y)).sum + if x = y then 1 else 0 := by
  induction ls generalizing i with
  | nil => simp at h
  | cons b bs ih =>
    cases i with
    | zero =>
      simp only [appendAt, List.set_cons_zero, List.getD_cons_zero, List.map_cons,
        List.sum_cons, List.count_append]
      have hx : List.count y [x] = if x = y then 1 else 0 := by
        by_cases hxy : x = y <;> simp [List.count_singleton', hxy]
      omega
    | succ n =>
      have hn : n < bs.length := by simpa using h
      have := ih n hn
      simp only [appendAt, List.set_cons_succ, List.getD_cons_succ, List.map_cons,
        List.sum_cons] at *
      omega

theorem countSum_mkBundlesAux {α : Type} [DecidableEq α] (B : ℕ) (hB : 0 < B)
    (y : α) (l : List α) :
    ∀ (cnt : ℕ) (acc : List (List α)), acc.length = B →
      ((mkBundlesAux B l cnt acc).map (List.count y)).sum
        = (acc.map (List.count y)).sum + l.count y := by
  induction l with
  | nil => intro cnt acc hacc; simp [mkBundlesAux]
  | cons s rest ih =>
    intro cnt acc hacc
    rw [mkBundlesAux, ih (cnt + 1) _ (by rw [length_appendAt, hacc]),
      countSum_appendAt acc _ s y (by rw [hacc]; exact Nat.mod_lt _ hB),
      List.count_cons]
    by_cases hsy : s = y
    · simp only [hsy, if_pos, List.count_cons_self, beq_self_eq_true]
      omega
    · simp only [if_neg hsy]
      have : (s == y) = false := by simpa using hsy
      simp [this]

theorem countSum_mkBundles {α : Type} [DecidableEq α] (B : ℕ) (hB : 0 < B)
    (y : α) (xs : List α) :
    ((mkBundles B xs).map (List.count y)).sum = xs.count y := by
  rw [mkBundles, countSum_mkBundlesAux B hB y xs 0 _ (List.length_replicate B [])]
  simp [List.map_replicate]

/-- The concatenation of the bundles built by `BendersAlgorithm.initialize`
is a permutation of the full scenario list. -/
theorem mkBundles_flatten_perm {α : Type} (B : ℕ) (hB : 0 < B) (xs : List α) :
    (mkBundles B xs).flatten.Perm xs := by
  classical
  rw [List.perm_iff_count]
  intro y
  rw [List.count_flatten, countSum_mkBundles B hB y xs]

theorem countP_mem_of_countSum_zero {α : Type} [DecidableEq α]
    (ls : List (List α)) (y : α) (h : (ls.map (List.count y)).sum = 0) :
    ls.countP (fun b => decide (y ∈ b)) = 0 := by
  rw [List.countP_eq_zero]
  intro b hb
  have hcount : b.count y = 0 := by
    have := List.sum_eq_zero_iff.mp h (b.count y)
      (List.mem_map.mpr ⟨b, hb, rfl⟩)
    exact this
  have : y ∉ b := List.count_eq_zero.mp hcount
  simpa using this

theorem countP_mem_of_countSum_one {α : Type} [DecidableEq α]
    (ls : List (List α)) (y : α) (h : (ls.map (List.count y)).sum = 1) :
    ls.countP (fun b => decide (y ∈ b)) = 1 := by
  induction ls with
  | nil => simp at h
  | cons b bs ih =>
    simp only [List.map_cons, List.sum_cons] at h
    rw [List.countP_cons]
    rcases Nat.eq_zero_or_pos (b.count y) with hb0 | hbpos
    · have hno : y ∉ b := List.count_eq_zero.mp hb0
      rw [ih (by omega)]
      simp [hno]
    · have hmem : y ∈ b := List.count_pos_iff.mp hbpos
      have hrest : (bs.map (List.count y)).sum = 0 := by omega
      rw [countP_mem_of_countSum_zero bs y hrest]
      simp [hmem]

/-! ### Cut expressions (`BendersAlgorithm.add_cut`, benders.py lines 1265-1325) -/

/-- Mirrors the Python class `BendersOptimalityCut`: the trial point
`xbars`, per-scenario subproblem costs `ssc`, and per-scenario duals on the
first-stage fixing constraints. -/
structure BendersOptimalityCut (α V : Type) where
  xbars : V → ℚ
  ssc : α → ℚ
  duals : α → V → ℚ

/-- One scenario's contribution to a cut expression, exactly as accumulated
in `add_cut`:
`scenario._probability * (scenario_ssc + sum(scenario_duals[v] *
(master_bySymbol[v] - xbars[v]) for v in rootnode._variable_ids))`,
evaluated at a master first-stage assignment `x`. -/
def scenarioCutTerm {α V : Type} (prob : α → ℚ) (cut : BendersOptimalityCut α V)
    (varIds : List V) (s : α) (x : V → ℚ) : ℚ :=
  prob s *
    (cut.ssc s + (varIds.map (fun v => cut.duals s v * (x v - cut.xbars v))).sum)

/-- The accumulation loop of `add_cut`: `cut_expression = 0.0` followed by
`cut_expression += ...` over the given scenario list. -/
def cutBodySum {α V : Type} (prob : α → ℚ) (cut : BendersOptimalityCut α V)
    (varIds : List V) (scenarios : List α) (x : V → ℚ) : ℚ :=
  scenarios.foldl (fun acc s => acc + scenarioCutTerm prob cut varIds s x) 0

theorem foldl_add_eq_sum {α : Type} (f : α → ℚ) (l : List α) :
    ∀ a : ℚ, l.foldl (fun acc s => acc + f s) a = a + (l.map f).sum := by
  induction l with
  | nil => intro a; simp
  | cons s rest ih =>
    intro a
    rw [List.foldl_cons, ih, List.map_cons, List.sum_cons]
    ring

theorem cutBodySum_eq_sum {α V : Type} (prob : α → ℚ)
    (cut : BendersOptimalityCut α V) (varIds : List V) (scenarios : List α)
    (x : V → ℚ) :
    cutBodySum prob cut varIds scenarios x
      = (scenarios.map (fun s => scenarioCutTerm prob cut varIds s x)).sum := by
  rw [cutBodySum, foldl_add_eq_sum]
  ring

/-! ### Main loop control flow (benders.py lines 1414, 1488-1497)

`for i in range(1, max_iterations + 1): ...` with the iteration ending in
```
if optimality_gap <= self._options.percent_gap:
    ...
    break
else:
    self.add_cut(new_cut_info)
```
-/

/-- The control flow of the solve loop, abstracted over the gap observed at
each iteration: returns the list of iteration indices at which `add_cut` is
invoked and whether the loop exited through the convergence `break`.
`fuel` is the number of iterations remaining (initially `max_iterations`)
and `i` the current iteration index (initially 1). -/
def bendersLoop (tol : ℚ) (gap : ℕ → ℚ) : ℕ → ℕ → List ℕ × Bool
  | 0, _ => ([], false)
  | fuel + 1, i =>
    if gap i ≤ tol then ([], true)
    else
      let r := bendersLoop tol gap fuel (i + 1)
      (i :: r.1, r.2)

/-- A master-problem assignment: first-stage variable values `x`, the global
cut variable `PYSP_BENDERS_ALPHA` and the per-bundle cut variables
`PYSP_BENDERS_BUNDLE_ALPHA`. -/
structure MasterAssign (V : Type) where
  x : V → ℚ
  alpha : ℚ
  bundleAlpha : ℕ → ℚ

/-- One entry of the master's `ConstraintList` `PYSP_BENDERS_CUTS`: an
optional lower bound, a body evaluated at a master assignment, and an
optional upper bound, mirroring the `(lb, expr, ub)` triples passed to
`benders_cuts.add`. -/
structure CutConstraint (V : Type) where
  lb : Option ℚ
  body : MasterAssign V → ℚ
  ub : Option ℚ

/-- Satisfaction of a cut constraint at a master assignment: the body lies
between the bounds, an absent bound imposing nothing. -/
def cutConSat {V : Type} (c : CutConstraint V) (m : MasterAssign V) : Prop :=
  (match c.lb with
   | none => True
   | some l => l ≤ c.body m) ∧
  (match c.ub with
   | none => True
   | some u => c.body m ≤ u)

/-- Embeds `BendersAlgorithm.add_cut(benders_cut, per_bundle)` (lines
1265-1325): with `per_bundle` set, one constraint per bundle is appended to
the cut pool, with body the bundle's accumulated cut expression minus
`bundle_alpha[i]`; otherwise a single constraint with body the aggregate
expression minus `master_alpha`.  For minimize the appended triple is
`(None, cut_expression, 0.0)`, for maximize `(0.0, cut_expression, None)`. -/
def addCut {α V : Type} (sense : Sense) (prob : α → ℚ) (varIds : List V)
    (bundles : List (List α)) (scenarios : List α)
    (cut : BendersOptimalityCut α V) (perBundle : Bool)
    (pool : List (CutConstraint V)) : List (CutConstraint V) :=
  if perBundle then
    pool ++ bundles.enum.map (fun p =>
      let e : MasterAssign V → ℚ := fun m =>
        cutBodySum prob cut varIds p.2 m.x - m.bundleAlpha p.1
      match sense with
      | .minimize => ⟨none, e, some 0⟩
      | .maximize => ⟨some 0, e, none⟩)
  else
    let e : MasterAssign V → ℚ := fun m =>
      cutBodySum prob cut varIds scenarios m.x - m.alpha
    match sense with
    | .minimize => pool ++ [⟨none, e, some 0⟩]
    | .maximize => pool ++ [⟨some 0, e, none⟩]

/-- The aggregate cut left-hand side as written in the spec:
`Σ_s prob_s (SSC_s + Σ_v dual_{s,v} (x_v − xbar_v)) − alpha`. -/
def specAggCutLHS {α V : Type} (prob : α → ℚ) (cut : BendersOptimalityCut α V)
    (varIds : List V) (scenarios : List α) (m : MasterAssign V) : ℚ :=
  (scenarios.map (fun s => prob s *
    (cut.ssc s +
      (varIds.map (fun v => cut.duals s v * (m.x v - cut.xbars v))).sum))).sum
    - m.alpha

/-- The per-bundle cut left-hand side as written in the spec, for bundle
index `b` with scenario list `bscens`: the same probability-weighted sum
restricted to the bundle's scenarios, with `alpha_b` in place of `alpha`. -/
def specBundleCutLHS {α V : Type} (prob : α → ℚ)
    (cut : BendersOptimalityCut α V) (varIds : List V) (bscens : List α)
    (b : ℕ) (m : MasterAssign V) : ℚ :=
  (bscens.map (fun s => prob s *
    (cut.ssc s +
      (varIds.map (fun v => cut.duals s v * (m.x v - cut.xbars v))).sum))).sum
    - m.bundleAlpha b

/-! ### Bound history (benders.py lines 1370-1375 and 1471-1474) -/

/-- The seeded bound history of `BendersAlgorithm.solve`:
`MASTER_bound_history[0] = trivial_bound` and `MASTER_bound_history[-1]` is
the user bound when provided, else `float('-inf')` for minimize and
`float('inf')` for maximize. -/
def initialBoundHistory (sense : Sense) (trivialBound : ExtQ)
    (userBound : Option ℚ) : List (ℤ × ExtQ) :=
  [((0 : ℤ), trivialBound),
   ((-1 : ℤ), match userBound with
     | some u => ((u : WithTop ℚ) : ExtQ)
     | none => match sense with
       | .minimize => (⊥ : ExtQ)
       | .maximize => ((⊤ : WithTop ℚ) : ExtQ))]

/-- Recording the per-iteration master bounds `vs` into the history, one
per loop iteration starting at iteration index `i`. -/
def recordBoundsFrom (vs : List ExtQ) (i : ℤ) (h : List (ℤ × ExtQ)) :
    List (ℤ × ExtQ) :=
  match vs with
  | [] => h
  | v :: rest => recordBoundsFrom rest (i + 1) ((i, v) :: h)

/-- `max(MASTER_bound_history.values())`: the best bound under minimize
sense (line 1471). -/
def bestBoundMin (h : List (ℤ × ExtQ)) : ExtQ := (h.map Prod.snd).foldr max ⊥

/-- `min(MASTER_bound_history.values())`: the best bound under maximize
sense (line 1472). -/
def bestBoundMax (h : List (ℤ × ExtQ)) : ExtQ := (h.map Prod.snd).foldr min ⊤

theorem bestBoundMin_le_record (vs : List ExtQ) :
    ∀ (i : ℤ) (h : List (ℤ × ExtQ)),
      bestBoundMin h ≤ bestBoundMin (recordBoundsFrom vs i h) := by
  induction vs with
  | nil => intro i h; exact le_refl _
  | cons v rest ih =>
    intro i h
    calc bestBoundMin h ≤ bestBoundMin ((i, v) :: h) := by
          simp only [bestBoundMin, List.map_cons, List.foldr_cons]
          exact le_max_right _ _
      _ ≤ _ := ih (i + 1) ((i, v) :: h)

theorem record_le_bestBoundMax (vs : List ExtQ) :
    ∀ (i : ℤ) (h : List (ℤ × ExtQ)),
      bestBoundMax (recordBoundsFrom vs i h) ≤ bestBoundMax h := by
  induction vs with
  | nil => intro i h; exact le_refl _
  | cons v rest ih =>
    intro i h
    calc bestBoundMax (recordBoundsFrom rest (i + 1) ((i, v) :: h))
        ≤ bestBoundMax ((i, v) :: h) := ih (i + 1) ((i, v) :: h)
      _ ≤ bestBoundMax h := by
          simp only [bestBoundMax, List.map_cons, List.foldr_cons]
          exact min_le_right _ _

theorem recordBoundsFrom_append (a b : List ExtQ) :
    ∀ (i : ℤ) (h : List (ℤ × ExtQ)),
      recordBoundsFrom (a ++ b) i h
        = recordBoundsFrom b (i + a.length) (recordBoundsFrom a i h) := by
  induction a with
  | nil => intro i h; simp [recordBoundsFrom]
  | cons v rest ih =>
    intro i h
    simp only [List.cons_append, recordBoundsFrom, List.append_eq]
    rw [ih]
    have harith : i + 1 + (rest.length : ℤ) = i + ((v :: rest).length : ℤ) := by
      simp only [List.length_cons]
      push_cast
      ring
    rw [harith]

/-! ### Seed-cut phase and alpha freeing (benders.py lines 1363-1368 and
1436-1438) -/

/-- Events of the `BendersAlgorithm.solve` trace relevant to the seed-cut
and alpha-freeing behavior. -/
inductive BEvent where
  | seedCut
  | masterSolve
  | freeAlpha
  | recordBound
  | iterCut
deriving DecidableEq

/-- Embeds the pre-loop seed phase (lines 1363-1368):
`if not master_alpha.fixed:` generate a cut at the root node's `_xbars` and
add it. -/
def seedPhase (alphaFixed : Bool) : List BEvent :=
  if alphaFixed then [] else [.seedCut]

/-- Embeds the first loop iteration as an event trace: the master solve
(lines 1419-1433), the freeing of a still-fixed alpha right after it (lines
1436-1438, with `assert i == 1`), the bound recording (line 1449), and the
end-of-iteration cut addition that is skipped when the gap test converged
(lines 1490-1497). -/
def iterBodyEvents (alphaFixedAtIter : Bool) (converged : Bool) : List BEvent :=
  [.masterSolve]
    ++ (if alphaFixedAtIter then [.freeAlpha] else [])
    ++ [.recordBound]
    ++ (if converged then [] else [.iterCut])

/-- The event trace of `solve` through the end of the first loop iteration.
When alpha starts fixed, the seed phase does nothing, so alpha is still
fixed when iteration 1 tests it. -/
def solveFirstEvents (alphaStartsFixed : Bool) (converged : Bool) : List BEvent :=
  seedPhase alphaStartsFixed ++ iterBodyEvents alphaStartsFixed converged

end BendersPy

namespace BendersPy

/-! ### Theorems -/

/-- C4: `gap()` equals `|bestBound − bestIncumbent| / (1e-10 + |bestIncumbent|)`;
it is non-negative for every pair of values, and it equals `0` exactly when
`bestBound = bestIncumbent`. -/
theorem optimalityGap_spec (b inc : ℚ) :
    optimalityGap b inc = |b - inc| / (1 / 10 ^ 10 + |inc|) ∧
    0 ≤ optimalityGap b inc ∧
    (optimalityGap b inc = 0 ↔ b = inc) := by
  have hden : (0 : ℚ) < epsGap + |inc| := by
    have h1 : (0 : ℚ) < epsGap := by norm_num [epsGap]
    have h2 : (0 : ℚ) ≤ |inc| := abs_nonneg inc
    linarith
  refine ⟨rfl, ?_, ?_⟩
  · exact div_nonneg (abs_nonneg _) (le_of_lt hden)
  · constructor
    · intro h
      rcases div_eq_zero_iff.mp h with h0 | h0
      · have := abs_eq_zero.mp h0
        linarith
      · exact absurd h0 (ne_of_gt hden)
    · intro h
      subst h
      simp [optimalityGap]

/-- C9 counterexample: when the required worker count is user-configured
(here 5), `collect_servers` issues the acquisition call with timeout `None`,
not with the configured timeout (here 30). -/
theorem collectServers_claim_false :
    ¬ ((collectServers (some 5) 30 false 1 3).2 = some 30) := by
  decide

/-- C9 (amended): when the required worker count is not user-configured,
the acquisition call requests the inferred job count (bundles when bundled,
scenarios otherwise) with the configured timeout; when it is user-configured
to `n`, the call requests `n` workers with no timeout (unbounded wait). -/
theorem collectServers_spec (tmo : ℚ) (cb : Bool) (nb ns n : ℕ) :
    collectServers none tmo cb nb ns = ((if cb then nb else ns), some tmo) ∧
    collectServers (some n) tmo cb nb ns = (n, none) := by
  constructor <;> rfl

/-- C2: the per-scenario dual price returned by `EXTERNAL_collect_cut_data`
is the raw fixing-constraint dual scaled by `bundleProbability /
scenarioProbability` when solved as part of a bundle; when solved unbundled
(and the scenario probability is nonzero) the multiplier is 1, so the raw
dual is returned. -/
theorem collectCutDataDuals_spec {V : Type} (bp sp : ℚ) (d : V → ℚ) :
    (∀ v, collectCutDataDuals true bp sp d v = d v * (bp / sp)) ∧
    (sp ≠ 0 → ∀ v, collectCutDataDuals false bp sp d v = d v) := by
  constructor
  · intro v
    simp [collectCutDataDuals, mul_div_assoc]
  · intro hsp v
    simp [collectCutDataDuals]
    rw [mul_div_assoc, div_self hsp, mul_one]

/-- C2 witness: concrete evaluation with bundle probability 3/4 and scenario
probability 1/4. -/
theorem collectCutDataDuals_spec_witness :
    ((1 : ℚ) / 4 ≠ 0) ∧
    ((∀ v : Unit, collectCutDataDuals true (3/4) (1/4) (fun _ => (2 : ℚ)) v
        = 2 * ((3/4) / (1/4))) ∧
     ((1 : ℚ) / 4 ≠ 0 → ∀ v : Unit,
        collectCutDataDuals false (3/4) (1/4) (fun _ => (2 : ℚ)) v = 2)) := by
  refine ⟨by norm_num, ?_⟩
  exact collectCutDataDuals_spec (3/4) (1/4) (fun _ => (2 : ℚ))

/-- C10: for every master solve whose result reports a numeric gap, the value
recorded in the bound history at iteration `i` is the master objective minus
the gap under minimize (plus the gap under maximize); when no gap is
reported, the master objective is recorded unchanged. -/
theorem recordIterationBound_spec (hist : List (ℤ × ExtQ)) (i : ℤ)
    (obj g : ℚ) :
    recordIterationBound hist i .minimize obj (some g)
      = (i, ((obj - g : ℚ) : ExtQ)) :: hist ∧
    recordIterationBound hist i .maximize obj (some g)
      = (i, ((obj + g : ℚ) : ExtQ)) :: hist ∧
    (∀ sense, recordIterationBound hist i sense obj none
      = (i, ((obj : ℚ) : ExtQ)) :: hist) := by
  refine ⟨rfl, rfl, ?_⟩
  intro sense
  cases sense <;> rfl

/-- C8: an iteration of the main loop adds its cut to the master exactly
when it is reached (every earlier iteration's gap stayed above tolerance)
and its own gap test has not converged; the loop exits through the
convergence branch exactly when some reached iteration's gap falls to
tolerance, and that final iteration adds no cut. -/
theorem bendersLoop_spec (tol : ℚ) (gap : ℕ → ℚ) (fuel start i : ℕ) :
    (i ∈ (bendersLoop tol gap fuel start).1 ↔
      (start ≤ i ∧ i < start + fuel ∧ ∀ j, start ≤ j → j ≤ i → tol < gap j)) ∧
    ((bendersLoop tol gap fuel start).2 = true ↔
      ∃ k, start ≤ k ∧ k < start + fuel ∧ gap k ≤ tol ∧
        ∀ j, start ≤ j → j < k → tol < gap j) := by
  induction fuel generalizing start with
  | zero =>
    refine ⟨?_, ?_⟩
    · constructor
      · intro h
        simp [bendersLoop] at h
      · rintro ⟨h1, h2, -⟩
        omega
    · constructor
      · intro h
        simp [bendersLoop] at h
      · rintro ⟨k, h1, h2, -, -⟩
        omega
  | succ fuel ih =>
    by_cases hg : gap start ≤ tol
    · refine ⟨?_, ?_⟩
      · constructor
        · intro h
          simp [bendersLoop, hg] at h
        · rintro ⟨h1, h2, hall⟩
          exact absurd hg (not_le.mpr (hall start le_rfl h1))
      · constructor
        · intro _
          exact ⟨start, le_rfl, by omega, hg, fun j hj1 hj2 => absurd hj1 (by omega)⟩
        · intro _
          simp [bendersLoop, hg]
    · have hgs : tol < gap start := not_le.mp hg
      have ihs := ih (start + 1)
      refine ⟨?_, ?_⟩
      · constructor
        · intro h
          simp only [bendersLoop, if_neg hg] at h
          rcases List.mem_cons.mp h with heq | hmem
          · subst heq
            exact ⟨le_rfl, by omega, fun j hj1 hj2 => by
              have hj : j = i := by omega
              rw [hj]
              exact hgs⟩
          · obtain ⟨m1, m2, m3⟩ := (ihs.1).mp hmem
            refine ⟨by omega, by omega, fun j hj1 hj2 => ?_⟩
            by_cases hjs : j = start
            · rw [hjs]
              exact hgs
            · exact m3 j (by omega) hj2
        · rintro ⟨h1, h2, hall⟩
          simp only [bendersLoop, if_neg hg]
          by_cases his : i = start
          · rw [his]
            exact List.mem_cons_self _ _
          · apply List.mem_cons_of_mem
            exact (ihs.1).mpr ⟨by omega, by omega, fun j hj1 hj2 => hall j (by omega) hj2⟩
      · constructor
        · intro h
          simp only [bendersLoop, if_neg hg] at h
          obtain ⟨k, k1, k2, k3, k4⟩ := (ihs.2).mp h
          refine ⟨k, by omega, by omega, k3, fun j hj1 hj2 => ?_⟩
          by_cases hjs : j = start
          · rw [hjs]
            exact hgs
          · exact k4 j (by omega) hj2
        · rintro ⟨k, k1, k2, k3, k4⟩
          simp only [bendersLoop, if_neg hg]
          apply (ihs.2).mpr
          have hks : k ≠ start := by
            intro heq
            rw [heq] at k3
            exact absurd k3 (not_le.mpr hgs)
          exact ⟨k, by omega, by omega, k3, fun j hj1 hj2 => k4 j (by omega) hj2⟩

/-- C6: under the run constraint `1 ≤ B ≤ number of scenarios` (asserted by
`BendersAlgorithm.initialize`) and distinct scenario names, the scenario with
enumeration index `k` lands in bundle `k % B`; every scenario belongs to
exactly one bundle; and the concatenation of all bundles is a permutation of
the full scenario list. -/
theorem mkBundles_spec {α : Type} [DecidableEq α] (B : ℕ) (xs : List α)
    (hB1 : 1 ≤ B) (_hB2 : B ≤ xs.length) (hnd : xs.Nodup) :
    (∀ (k : ℕ) (hk : k < xs.length),
        xs.get ⟨k, hk⟩ ∈ (mkBundles B xs).getD (k % B) []) ∧
    (∀ x ∈ xs, (mkBundles B xs).countP (fun b => decide (x ∈ b)) = 1) ∧
    (mkBundles B xs).flatten.Perm xs := by
  have hB : 0 < B := hB1
  refine ⟨?_, ?_, mkBundles_flatten_perm B hB xs⟩
  · intro k hk
    have := get_mem_mkBundlesAux B hB xs 0 (List.replicate B [])
      (List.length_replicate B []) k hk
    simpa [mkBundles] using this
  · intro x hx
    apply countP_mem_of_countSum_one
    rw [countSum_mkBundles B hB x xs]
    exact List.count_eq_one_of_mem hnd hx

/-- C6 witness: three scenarios split round-robin over two bundles. -/
theorem mkBundles_spec_witness :
    ((1 ≤ 2) ∧ (2 ≤ ([0, 1, 2] : List ℕ).length) ∧ ([0, 1, 2] : List ℕ).Nodup) ∧
    ((∀ (k : ℕ) (hk : k < ([0, 1, 2] : List ℕ).length),
        ([0, 1, 2] : List ℕ).get ⟨k, hk⟩ ∈ (mkBundles 2 [0, 1, 2]).getD (k % 2) []) ∧
     (∀ x ∈ ([0, 1, 2] : List ℕ),
        (mkBundles 2 [0, 1, 2]).countP (fun b => decide (x ∈ b)) = 1) ∧
     (mkBundles 2 ([0, 1, 2] : List ℕ)).flatten.Perm [0, 1, 2]) :=
  ⟨⟨by decide, by decide, by decide⟩,
   mkBundles_spec 2 [0, 1, 2] (by decide) (by decide) (by decide)⟩

/-- C7: for a fixed trial point and fixed per-scenario SSC and dual values,
the per-bundle cut bodies built by `add_cut` with `per_bundle` set (before
the `alpha_b` terms are subtracted) sum, over all bundles, to the single
aggregate cut body built without `per_bundle` (before `alpha` is
subtracted), over the same scenario set. -/
theorem bundling_equivalence {α V : Type} (prob : α → ℚ)
    (cut : BendersOptimalityCut α V) (varIds : List V) (B : ℕ)
    (scenarios : List α) (x : V → ℚ)
    (hB1 : 1 ≤ B) (_hB2 : B ≤ scenarios.length) :
    ((mkBundles B scenarios).map
        (fun b => cutBodySum prob cut varIds b x)).sum
      = cutBodySum prob cut varIds scenarios x := by
  have hperm : (mkBundles B scenarios).flatten.Perm scenarios :=
    mkBundles_flatten_perm B hB1 scenarios
  calc ((mkBundles B scenarios).map (fun b => cutBodySum prob cut varIds b x)).sum
      = ((mkBundles B scenarios).map
          (fun b => (b.map (fun s => scenarioCutTerm prob cut varIds s x)).sum)).sum := by
        simp only [cutBodySum_eq_sum]
    _ = (((mkBundles B scenarios).map
          (fun b => b.map (fun s => scenarioCutTerm prob cut varIds s x))).map
            List.sum).sum := by
        rw [List.map_map]
        rfl
    _ = ((mkBundles B scenarios).flatten.map
          (fun s => scenarioCutTerm prob cut varIds s x)).sum := by
        rw [← List.sum_flatten, List.map_flatten]
    _ = (scenarios.map (fun s => scenarioCutTerm prob cut varIds s x)).sum :=
        (hperm.map _).sum_eq
    _ = cutBodySum prob cut varIds scenarios x := (cutBodySum_eq_sum _ _ _ _ _).symm

/-- C7 witness: two bundles over three scenarios with concrete data. -/
theorem bundling_equivalence_witness :
    ((1 ≤ 2) ∧ (2 ≤ ([0, 1, 2] : List ℕ).length)) ∧
    ((mkBundles 2 ([0, 1, 2] : List ℕ)).map
        (fun b => cutBodySum (fun _ => 1 / 3)
          ({ xbars := fun _ => 2, ssc := fun s => (s : ℚ),
             duals := fun s _ => (s : ℚ) + 1 } : BendersOptimalityCut ℕ Unit)
          [()] b (fun _ => 5))).sum
      = cutBodySum (fun _ => 1 / 3)
          ({ xbars := fun _ => 2, ssc := fun s => (s : ℚ),
             duals := fun s _ => (s : ℚ) + 1 } : BendersOptimalityCut ℕ Unit)
          [()] ([0, 1, 2] : List ℕ) (fun _ => 5) :=
  ⟨⟨by decide, by decide⟩,
   bundling_equivalence (fun _ => 1 / 3)
     ({ xbars := fun _ => 2, ssc := fun s => (s : ℚ),
        duals := fun s _ => (s : ℚ) + 1 } : BendersOptimalityCut ℕ Unit)
     [()] 2 [0, 1, 2] (fun _ => 5) (by decide) (by decide)⟩

/-- C5: the best bound — `max` over all recorded bound-history entries,
including the trivial bound seeded at index 0 and the user bound seeded at
index −1 — is non-decreasing as new bounds are recorded under minimize
sense; the `min`-based best bound is non-increasing under maximize. -/
theorem bestBound_monotone (sense : Sense) (trivialBound : ExtQ)
    (userBound : Option ℚ) (vs : List ExtQ) (i j : ℕ) (hij : i ≤ j) :
    (sense = .minimize →
      bestBoundMin (recordBoundsFrom (vs.take i) 1
          (initialBoundHistory sense trivialBound userBound))
        ≤ bestBoundMin (recordBoundsFrom (vs.take j) 1
          (initialBoundHistory sense trivialBound userBound))) ∧
    (sense = .maximize →
      bestBoundMax (recordBoundsFrom (vs.take j) 1
          (initialBoundHistory sense trivialBound userBound))
        ≤ bestBoundMax (recordBoundsFrom (vs.take i) 1
          (initialBoundHistory sense trivialBound userBound))) := by
  obtain ⟨d, rfl⟩ : ∃ d, j = i + d := ⟨j - i, by omega⟩
  rw [List.take_add, recordBoundsFrom_append]
  exact ⟨fun _ => bestBoundMin_le_record _ _ _,
         fun _ => record_le_bestBoundMax _ _ _⟩

/-- C5 witness: minimize sense, trivial bound 5, no user bound, two
recorded bounds, comparing iterations 0 and 2. -/
theorem bestBound_monotone_witness :
    (0 ≤ 2) ∧
    ((Sense.minimize = Sense.minimize →
      bestBoundMin (recordBoundsFrom (([(((3 : ℚ) : WithTop ℚ) : ExtQ),
            (((7 : ℚ) : WithTop ℚ) : ExtQ)]).take 0) 1
          (initialBoundHistory .minimize (((5 : ℚ) : WithTop ℚ) : ExtQ) none))
        ≤ bestBoundMin (recordBoundsFrom (([(((3 : ℚ) : WithTop ℚ) : ExtQ),
            (((7 : ℚ) : WithTop ℚ) : ExtQ)]).take 2) 1
          (initialBoundHistory .minimize (((5 : ℚ) : WithTop ℚ) : ExtQ) none))) ∧
     (Sense.minimize = Sense.maximize →
      bestBoundMax (recordBoundsFrom (([(((3 : ℚ) : WithTop ℚ) : ExtQ),
            (((7 : ℚ) : WithTop ℚ) : ExtQ)]).take 2) 1
          (initialBoundHistory .minimize (((5 : ℚ) : WithTop ℚ) : ExtQ) none))
        ≤ bestBoundMax (recordBoundsFrom (([(((3 : ℚ) : WithTop ℚ) : ExtQ),
            (((7 : ℚ) : WithTop ℚ) : ExtQ)]).take 0) 1
          (initialBoundHistory .minimize (((5 : ℚ) : WithTop ℚ) : ExtQ) none)))) :=
  ⟨by decide,
   bestBound_monotone .minimize (((5 : ℚ) : WithTop ℚ) : ExtQ) none
     [(((3 : ℚ) : WithTop ℚ) : ExtQ), (((7 : ℚ) : WithTop ℚ) : ExtQ)]
     0 2 (by decide)⟩

/-- C1: under minimize sense, `add_cut` appends to the master's cut pool
the inequality `Σ_s prob_s (SSC_s + Σ_v dual_{s,v} (x_v − xbar_v)) − alpha
≤ 0` — one inequality per bundle, with `alpha_b` in place of `alpha` and
the sum restricted to that bundle's scenarios, when `per_bundle` is set —
and under maximize sense the direction is reversed to `≥ 0`.  The `(None,
·, 0.0)` triple is satisfied exactly when the body is `≤ 0`, and the
`(0.0, ·, None)` triple exactly when it is `≥ 0`. -/
theorem addCut_spec {α V : Type} (prob : α → ℚ) (varIds : List V)
    (bundles : List (List α)) (scenarios : List α)
    (cut : BendersOptimalityCut α V) (pool : List (CutConstraint V)) :
    (addCut .minimize prob varIds bundles scenarios cut false pool
      = pool ++ [⟨none, fun m => specAggCutLHS prob cut varIds scenarios m,
                  some 0⟩]) ∧
    (addCut .maximize prob varIds bundles scenarios cut false pool
      = pool ++ [⟨some 0, fun m => specAggCutLHS prob cut varIds scenarios m,
                  none⟩]) ∧
    (addCut .minimize prob varIds bundles scenarios cut true pool
      = pool ++ bundles.enum.map (fun p =>
          ⟨none, fun m => specBundleCutLHS prob cut varIds p.2 p.1 m,
           some 0⟩)) ∧
    (addCut .maximize prob varIds bundles scenarios cut true pool
      = pool ++ bundles.enum.map (fun p =>
          ⟨some 0, fun m => specBundleCutLHS prob cut varIds p.2 p.1 m,
           none⟩)) ∧
    (∀ (e : MasterAssign V → ℚ) (m : MasterAssign V),
      (cutConSat ⟨none, e, some 0⟩ m ↔ e m ≤ 0) ∧
      (cutConSat ⟨some 0, e, none⟩ m ↔ 0 ≤ e m)) := by
  have hagg : (fun m : MasterAssign V =>
      cutBodySum prob cut varIds scenarios m.x - m.alpha)
      = fun m => specAggCutLHS prob cut varIds scenarios m := by
    funext m
    rw [cutBodySum_eq_sum]
    rfl
  have hbun : ∀ p : ℕ × List α,
      (fun m : MasterAssign V =>
        cutBodySum prob cut varIds p.2 m.x - m.bundleAlpha p.1)
      = fun m => specBundleCutLHS prob cut varIds p.2 p.1 m := by
    intro p
    funext m
    rw [cutBodySum_eq_sum]
    rfl
  refine ⟨?_, ?_, ?_, ?_, ?_⟩
  · simp only [addCut, hagg, Bool.false_eq_true, if_false]
  · simp only [addCut, hagg, Bool.false_eq_true, if_false]
  · simp only [addCut, if_pos]
    congr 1
    apply List.map_congr_left
    intro p _
    rw [hbun p]
  · simp only [addCut, if_pos]
    congr 1
    apply List.map_congr_left
    intro p _
    rw [hbun p]
  · intro e m
    constructor
    · simp [cutConSat]
    · simp [cutConSat]

/-- C3 counterexample: contrary to the claim, when alpha starts fixed the
solve trace contains no seed cut, and when alpha starts free it contains
one — evaluated here at the concrete trace with a non-converging first
iteration. -/
theorem seedCut_claim_false :
    ¬ (((solveFirstEvents true false).count .seedCut = 1) ∧
       ((solveFirstEvents false false).count .seedCut = 0)) := by
  decide

/-- C3 (amended): a seed cut is generated from the root node's initial
trial point exactly when alpha does **not** start fixed; when alpha starts
fixed, no seed cut is generated and alpha is freed during the first loop
iteration immediately after the first master solve, before that iteration's
cut is added. -/
theorem seedCut_spec (conv : Bool) :
    (solveFirstEvents false conv).count .seedCut = 1 ∧
    (solveFirstEvents true conv).count .seedCut = 0 ∧
    (solveFirstEvents true conv).count .freeAlpha = 1 ∧
    (solveFirstEvents false conv).count .freeAlpha = 0 ∧
    (solveFirstEvents true conv).take 2 = [.masterSolve, .freeAlpha] := by
  cases conv <;> decide

end BendersPy
